import Mathlib

/-!
Shallow embedding of `simple cryptogram/data/populate_daily_puzzles.py`.

The script selects up to `NUM_DAYS` quote ids with difficulty `"medium"`
from the `quotes` table, pairs the i-th fetched id (0-indexed) with
`START_DATE + i` days rendered as `YYYY-MM-DD`, inserts each pair into
`daily_puzzles` with INSERT OR IGNORE, commits once, and prints a
one-line summary.
-/

set_option maxRecDepth 2000

namespace DailySeeder

/-- A calendar date, as held by Python's `datetime`. -/
structure Date where
  year : Nat
  month : Nat
  day : Nat
deriving DecidableEq, Repr

/-- Gregorian leap-year rule, as used by Python's `datetime` arithmetic. -/
def isLeapYear (y : Nat) : Bool :=
  y % 4 == 0 && (y % 100 != 0 || y % 400 == 0)

/-- Number of days in a Gregorian month. -/
def daysInMonth (y m : Nat) : Nat :=
  if m = 2 then (if isLeapYear y then 29 else 28)
  else if m = 4 ∨ m = 6 ∨ m = 9 ∨ m = 11 then 30
  else 31

/-- The calendar day after `d` (embeds `+ timedelta(days=1)`). -/
def nextDay (d : Date) : Date :=
  if d.day < daysInMonth d.year d.month then ⟨d.year, d.month, d.day + 1⟩
  else if d.month < 12 then ⟨d.year, d.month + 1, 1⟩
  else ⟨d.year + 1, 1, 1⟩

/-- Adding `n` days to a date (embeds `d + timedelta(days=n)`). -/
def addDays (d : Date) : Nat → Date
  | 0 => d
  | n + 1 => nextDay (addDays d n)

/-- Decimal digits, most significant first, with structural fuel so the
definition reduces; `fuel ≥ n` always suffices. -/
def natDigitsGo : Nat → Nat → List Nat
  | 0, n => [n]
  | fuel + 1, n => if n < 10 then [n] else natDigitsGo fuel (n / 10) ++ [n % 10]

/-- Decimal digits of a natural number, most significant first. -/
def natDigits (n : Nat) : List Nat :=
  natDigitsGo n n

/-- The character for decimal digit `v`. -/
def digitChar (v : Nat) : Char :=
  Char.ofNat (48 + v)

/-- Decimal rendering of a natural number (embeds Python's `str(int)`). -/
def natToStr (n : Nat) : String :=
  String.mk ((natDigits n).map digitChar)

/-- Zero-padding to width 2, as `strftime` does for `%m` and `%d`. -/
def pad2 (n : Nat) : String :=
  if n < 10 then "0" ++ natToStr n else natToStr n

/-- Zero-padding to width 4, as `strftime` does for `%Y`. -/
def pad4 (n : Nat) : String :=
  if n < 10 then "000" ++ natToStr n
  else if n < 100 then "00" ++ natToStr n
  else if n < 1000 then "0" ++ natToStr n
  else natToStr n

/-- Embeds `strftime('%Y-%m-%d')`. -/
def fmtDate (d : Date) : String :=
  pad4 d.year ++ "-" ++ pad2 d.month ++ "-" ++ pad2 d.day

/-- The script constant `START_DATE = datetime(2025, 4, 23)`. -/
def START_DATE : Date := ⟨2025, 4, 23⟩

/-- The script constant `NUM_DAYS = 365`. -/
def NUM_DAYS : Nat := 365

/-- The date string assigned to position `i` of the fetched ids:
`(START_DATE + timedelta(days=i)).strftime('%Y-%m-%d')`. -/
def puzzleDate (i : Nat) : String :=
  fmtDate (addDays START_DATE i)

/-- A row of the `quotes` table, with the columns the script touches. -/
structure Quote where
  id : Nat
  difficulty : String
deriving DecidableEq, Repr

/-- The store state: the `quotes` table (in the order the store returns
rows, which SQLite keeps deterministic for a fixed state) and the
`daily_puzzles` table as a list of `(quote_id, puzzle_date)` rows. -/
structure DB where
  quotes : List Quote
  daily_puzzles : List (Nat × String)
deriving DecidableEq, Repr

/-- Embeds `SELECT id FROM quotes WHERE difficulty = 'medium' LIMIT 365`:
the ids of medium-difficulty rows in store order, capped at `NUM_DAYS`. -/
def selectMediumIds (db : DB) : List Nat :=
  ((db.quotes.filter fun q => q.difficulty == "medium").map fun q => q.id).take NUM_DAYS

/-- Modelled from the spec: the repository does not contain the schema of
`daily_puzzles`; per the spec its uniqueness constraint is the pair
`(quote_id, puzzle_date)`, so `INSERT OR IGNORE` appends the row exactly
when that pair is not already present and is a no-op otherwise. -/
def insertOrIgnore (dp : List (Nat × String)) (row : Nat × String) : List (Nat × String) :=
  if row ∈ dp then dp else dp ++ [row]

/-- The insert loop `for i, quote_id in enumerate(quote_ids)`, carrying the
running index `i`: the attempted rows `(quote_id, puzzleDate i)`. -/
def attemptedFrom (i : Nat) : List Nat → List (Nat × String)
  | [] => []
  | q :: qs => (q, puzzleDate i) :: attemptedFrom (i + 1) qs

/-- The full list of rows the run attempts to insert, in loop order. -/
def attemptedInserts (ids : List Nat) : List (Nat × String) :=
  attemptedFrom 0 ids

/-- The summary line `f"Populated {len(quote_ids)} daily puzzles starting from
{START_DATE.strftime('%Y-%m-%d')}"`. -/
def summaryLine (count : Nat) : String :=
  "Populated " ++ natToStr count ++ " daily puzzles starting from " ++ fmtDate START_DATE

/-- One run of the script on store state `db`: fetch ids, attempt every
insert, commit, and return the new store state with the printed line. -/
def runSeeder (db : DB) : DB × String :=
  let ids := selectMediumIds db
  let dp := (attemptedInserts ids).foldl insertOrIgnore db.daily_puzzles
  (⟨db.quotes, dp⟩, summaryLine ids.length)

/-- One step of reading a decimal key out of a string: digit characters
extend the accumulator, anything else is skipped. Proof gadget only. -/
def parseStep (a : Nat) (c : Char) : Nat :=
  if c.isDigit then a * 10 + (c.toNat - 48) else a

/-- The numeric key read off a string by scanning its digit characters.
Proof gadget used to show `fmtDate` is injective on calendar dates. -/
def parseKey (s : String) : Nat :=
  s.data.foldl parseStep 0

theorem natDigitsGo_small (fuel n : Nat) (h : n < 10) : natDigitsGo fuel n = [n] := by
  cases fuel <;> simp [natDigitsGo, h]

theorem natDigitsGo_ge (fuel n : Nat) (h : ¬ n < 10) :
    natDigitsGo (fuel + 1) n = natDigitsGo fuel (n / 10) ++ [n % 10] := by
  simp [natDigitsGo, h]

theorem natDigits_two (m : Nat) (h10 : 10 ≤ m) (h100 : m < 100) :
    natDigits m = [m / 10, m % 10] := by
  obtain ⟨k, rfl⟩ : ∃ k, m = k + 1 := ⟨m - 1, by omega⟩
  rw [natDigits, natDigitsGo_ge k (k + 1) (by omega),
    natDigitsGo_small k ((k + 1) / 10) (by omega)]
  rfl

theorem parseStep_digit (a v : Nat) (h : v < 10) :
    parseStep a (digitChar v) = a * 10 + v := by
  interval_cases v <;> rfl

theorem parseStep_dash (a : Nat) : parseStep a '-' = a := rfl

theorem natDigitsGo_lt (fuel : Nat) :
    ∀ n, n ≤ fuel → ∀ v ∈ natDigitsGo fuel n, v < 10 := by
  induction fuel with
  | zero =>
    intro n hn v hv
    simp [natDigitsGo] at hv
    omega
  | succ fuel ih =>
    intro n hn v hv
    by_cases h : n < 10
    · rw [natDigitsGo_small _ _ h] at hv
      simp at hv
      omega
    · rw [natDigitsGo_ge _ _ h] at hv
      rcases List.mem_append.mp hv with h1 | h2
      · exact ih (n / 10) (by omega) v h1
      · simp at h2
        omega

theorem foldl_natDigitsGo (fuel : Nat) :
    ∀ n, n ≤ fuel → ((natDigitsGo fuel n).map digitChar).foldl parseStep 0 = n := by
  induction fuel with
  | zero =>
    intro n hn
    have : n = 0 := by omega
    subst this
    simp [natDigitsGo, parseStep_digit]
  | succ fuel ih =>
    intro n hn
    by_cases h : n < 10
    · rw [natDigitsGo_small _ _ h]
      simpa using parseStep_digit 0 n h
    · rw [natDigitsGo_ge _ _ h, List.map_append, List.foldl_append,
        ih (n / 10) (by omega)]
      have := parseStep_digit (n / 10) (n % 10) (by omega)
      simp [this]
      omega

theorem foldl_natToStr (n : Nat) : (natToStr n).data.foldl parseStep 0 = n :=
  foldl_natDigitsGo n n (Nat.le_refl n)

theorem pad2_data (m : Nat) (h : m < 100) :
    (pad2 m).data = [digitChar (m / 10), digitChar (m % 10)] := by
  by_cases h10 : m < 10
  · have hd : m / 10 = 0 := by omega
    have hm : m % 10 = m := by omega
    rw [pad2, if_pos h10, hd, hm]
    rw [String.data_append, natToStr, natDigits, natDigitsGo_small m m h10]
    rfl
  · rw [pad2, if_neg h10, natToStr, natDigits_two m (by omega) h]
    rfl

theorem foldl_zeros (z : List Char) :
    (∀ c ∈ z, c = '0') → ∀ l : List Char, (z ++ l).foldl parseStep 0 = l.foldl parseStep 0 := by
  induction z with
  | nil => intro _ l; rfl
  | cons c cs ih =>
    intro hzc l
    have hc : c = '0' := hzc c (List.mem_cons_self c cs)
    subst hc
    show (cs ++ l).foldl parseStep (parseStep 0 '0') = l.foldl parseStep 0
    have h0 : parseStep 0 '0' = 0 := rfl
    rw [h0]
    exact ih (fun c hcm => hzc c (List.mem_cons_of_mem _ hcm)) l

theorem foldl_pad4 (y : Nat) : (pad4 y).data.foldl parseStep 0 = y := by
  rw [pad4]
  split
  · rw [String.data_append]
    exact (foldl_zeros "000".data (by decide) _).trans (foldl_natToStr y)
  · split
    · rw [String.data_append]
      exact (foldl_zeros "00".data (by decide) _).trans (foldl_natToStr y)
    · split
      · rw [String.data_append]
        exact (foldl_zeros "0".data (by decide) _).trans (foldl_natToStr y)
      · exact foldl_natToStr y

theorem foldl_pad2 (a n : Nat) (hn : n < 100) :
    (pad2 n).data.foldl parseStep a = a * 100 + n := by
  rw [pad2_data n hn]
  show parseStep (parseStep a (digitChar (n / 10))) (digitChar (n % 10)) = a * 100 + n
  rw [parseStep_digit a (n / 10) (by omega), parseStep_digit _ (n % 10) (by omega)]
  omega

theorem parseKey_fmtDate (y m day : Nat) (hm : m < 100) (hd : day < 100) :
    parseKey (fmtDate ⟨y, m, day⟩) = (y * 100 + m) * 100 + day := by
  rw [parseKey, fmtDate]
  simp only [String.data_append, List.foldl_append]
  rw [foldl_pad4]
  have h1 : List.foldl parseStep y "-".data = y := rfl
  rw [h1, foldl_pad2 y m hm]
  have h2 : List.foldl parseStep (y * 100 + m) "-".data = y * 100 + m := rfl
  rw [h2, foldl_pad2 _ day hd]

/-- A structurally well-formed Gregorian date, the invariant Python's
`datetime` maintains. -/
def ValidDate (d : Date) : Prop :=
  1 ≤ d.month ∧ d.month ≤ 12 ∧ 1 ≤ d.day ∧ d.day ≤ daysInMonth d.year d.month

/-- A measure that strictly increases day by day on valid dates. -/
def ordDate (d : Date) : Nat :=
  372 * d.year + 31 * d.month + d.day

theorem daysInMonth_le (y m : Nat) : daysInMonth y m ≤ 31 := by
  rw [daysInMonth]
  split
  · split <;> omega
  · split <;> omega

theorem daysInMonth_pos (y m : Nat) : 1 ≤ daysInMonth y m := by
  rw [daysInMonth]
  split
  · split <;> omega
  · split <;> omega

theorem nextDay_valid (d : Date) (h : ValidDate d) : ValidDate (nextDay d) := by
  obtain ⟨h1, h2, h3, h4⟩ := h
  by_cases hc1 : d.day < daysInMonth d.year d.month
  · rw [nextDay, if_pos hc1]
    exact ⟨h1, h2, Nat.succ_le_succ (Nat.zero_le _), hc1⟩
  · by_cases hc2 : d.month < 12
    · rw [nextDay, if_neg hc1, if_pos hc2]
      exact ⟨Nat.succ_le_succ (Nat.zero_le _), hc2, Nat.le_refl 1, daysInMonth_pos ..⟩
    · rw [nextDay, if_neg hc1, if_neg hc2]
      exact ⟨Nat.le_refl 1, (by decide : (1 : Nat) ≤ 12), Nat.le_refl 1, daysInMonth_pos ..⟩

theorem ordDate_lt_nextDay (d : Date) (h : ValidDate d) : ordDate d < ordDate (nextDay d) := by
  obtain ⟨h1, h2, h3, h4⟩ := h
  have h31 : daysInMonth d.year d.month ≤ 31 := daysInMonth_le ..
  by_cases hc1 : d.day < daysInMonth d.year d.month
  · rw [nextDay, if_pos hc1]
    simp only [ordDate]
    omega
  · by_cases hc2 : d.month < 12
    · rw [nextDay, if_neg hc1, if_pos hc2]
      simp only [ordDate]
      omega
    · rw [nextDay, if_neg hc1, if_neg hc2]
      simp only [ordDate]
      omega

theorem addDays_valid (d : Date) (h : ValidDate d) (n : Nat) : ValidDate (addDays d n) := by
  induction n with
  | zero => exact h
  | succ n ih => exact nextDay_valid _ ih

theorem ordDate_addDays_strictMono (d : Date) (h : ValidDate d) {i j : Nat} (hij : i < j) :
    ordDate (addDays d i) < ordDate (addDays d j) := by
  induction j with
  | zero => omega
  | succ j ih =>
    have hstep : ordDate (addDays d j) < ordDate (addDays d (j + 1)) :=
      ordDate_lt_nextDay _ (addDays_valid d h j)
    rcases Nat.lt_or_ge i j with hlt | hge
    · exact Nat.lt_trans (ih hlt) hstep
    · have : i = j := by omega
      subst this
      exact hstep

theorem addDays_inj (d : Date) (h : ValidDate d) {i j : Nat} (hij : i ≠ j) :
    addDays d i ≠ addDays d j := by
  rcases Nat.lt_or_ge i j with hlt | hge
  · intro heq
    have := ordDate_addDays_strictMono d h hlt
    rw [heq] at this
    omega
  · have hlt : j < i := by omega
    intro heq
    have := ordDate_addDays_strictMono d h hlt
    rw [heq] at this
    omega

theorem START_DATE_valid : ValidDate START_DATE := by
  refine ⟨by decide, by decide, by decide, ?_⟩
  decide

/-- The `YYYY-MM-DD` rendering determines a well-formed date uniquely. -/
theorem fmtDate_inj (a b : Date) (ha : ValidDate a) (hb : ValidDate b)
    (h : fmtDate a = fmtDate b) : a = b := by
  obtain ⟨ya, ma, da⟩ := a
  obtain ⟨yb, mb, db⟩ := b
  have hma : ma ≤ 12 := ha.2.1
  have hda : da ≤ daysInMonth ya ma := ha.2.2.2
  have hmb : mb ≤ 12 := hb.2.1
  have hdb : db ≤ daysInMonth yb mb := hb.2.2.2
  have hda' : da < 100 := by have := daysInMonth_le ya ma; omega
  have hdb' : db < 100 := by have := daysInMonth_le yb mb; omega
  have hkey : (ya * 100 + ma) * 100 + da = (yb * 100 + mb) * 100 + db := by
    rw [← parseKey_fmtDate ya ma da (by omega) hda',
      ← parseKey_fmtDate yb mb db (by omega) hdb', h]
  have hcomp : ya = yb ∧ ma = mb ∧ da = db := by
    refine ⟨by omega, by omega, by omega⟩
  obtain ⟨rfl, rfl, rfl⟩ := hcomp
  rfl

/-- Distinct loop positions always get distinct date strings. -/
theorem puzzleDate_inj {i j : Nat} (hij : i ≠ j) : puzzleDate i ≠ puzzleDate j := by
  intro heq
  exact addDays_inj START_DATE START_DATE_valid hij
    (fmtDate_inj (addDays START_DATE i) (addDays START_DATE j)
      (addDays_valid START_DATE START_DATE_valid i)
      (addDays_valid START_DATE START_DATE_valid j) heq)

theorem attemptedFrom_length (ids : List Nat) : ∀ k, (attemptedFrom k ids).length = ids.length := by
  induction ids with
  | nil => intro k; rfl
  | cons q qs ih =>
    intro k
    simp [attemptedFrom, ih]

theorem attemptedFrom_getElem (ids : List Nat) :
    ∀ k i (h : i < ids.length) (h2 : i < (attemptedFrom k ids).length),
      (attemptedFrom k ids)[i] = (ids[i], puzzleDate (k + i)) := by
  induction ids with
  | nil =>
    intro k i h
    simp at h
  | cons q qs ih =>
    intro k i h h2
    cases i with
    | zero => simp [attemptedFrom]
    | succ i =>
      have hi : i < qs.length := by simpa using h
      have hi2 : i < (attemptedFrom (k + 1) qs).length := by
        rw [attemptedFrom_length]
        exact hi
      have := ih (k + 1) i hi hi2
      simp only [attemptedFrom, List.getElem_cons_succ, this]
      congr 2
      omega

theorem attemptedFrom_mem (ids : List Nat) :
    ∀ k r, r ∈ attemptedFrom k ids →
      ∃ i, k ≤ i ∧ i < k + ids.length ∧ r.1 ∈ ids ∧ r.2 = puzzleDate i := by
  induction ids with
  | nil =>
    intro k r hr
    simp [attemptedFrom] at hr
  | cons q qs ih =>
    intro k r hr
    rcases List.mem_cons.mp hr with h | h
    · exact ⟨k, Nat.le_refl k, by simp only [List.length_cons]; omega,
        by rw [h]; simp, by rw [h]⟩
    · obtain ⟨i, hi1, hi2, hi3, hi4⟩ := ih (k + 1) r h
      exact ⟨i, by omega, by simp only [List.length_cons]; omega, by simp [hi3], hi4⟩

theorem attemptedFrom_nodup (ids : List Nat) : ∀ k, (attemptedFrom k ids).Nodup := by
  induction ids with
  | nil => intro k; exact List.nodup_nil
  | cons q qs ih =>
    intro k
    refine List.Nodup.cons ?_ (ih (k + 1))
    intro hmem
    obtain ⟨i, hi1, _, _, hi4⟩ := attemptedFrom_mem qs (k + 1) _ hmem
    exact puzzleDate_inj (show i ≠ k by omega) (hi4 ▸ rfl)

theorem attemptedInserts_length (ids : List Nat) :
    (attemptedInserts ids).length = ids.length :=
  attemptedFrom_length ids 0

theorem attemptedInserts_nodup (ids : List Nat) : (attemptedInserts ids).Nodup :=
  attemptedFrom_nodup ids 0

theorem attemptedInserts_getElem (ids : List Nat) (i : Nat) (h : i < ids.length)
    (h2 : i < (attemptedInserts ids).length) :
    (attemptedInserts ids)[i] = (ids[i], puzzleDate i) := by
  have := attemptedFrom_getElem ids 0 i h h2
  simpa using this

theorem mem_insertOrIgnore_self (dp : List (Nat × String)) (r : Nat × String) :
    r ∈ insertOrIgnore dp r := by
  rw [insertOrIgnore]
  split
  · assumption
  · simp

theorem mem_insertOrIgnore_of_mem (dp : List (Nat × String)) (r x : Nat × String)
    (h : x ∈ dp) : x ∈ insertOrIgnore dp r := by
  rw [insertOrIgnore]
  split
  · exact h
  · simp [h]

theorem insertOrIgnore_eq_of_mem (dp : List (Nat × String)) (r : Nat × String)
    (h : r ∈ dp) : insertOrIgnore dp r = dp := by
  rw [insertOrIgnore, if_pos h]

theorem foldl_insertOrIgnore_append (rows : List (Nat × String)) :
    ∀ dp, ∃ t, rows.foldl insertOrIgnore dp = dp ++ t := by
  induction rows with
  | nil => intro dp; exact ⟨[], by simp⟩
  | cons r rest ih =>
    intro dp
    rw [List.foldl_cons, insertOrIgnore]
    split
    · exact ih dp
    · obtain ⟨t, ht⟩ := ih (dp ++ [r])
      exact ⟨[r] ++ t, by rw [ht, List.append_assoc]⟩

theorem mem_foldl_insertOrIgnore_of_init (rows : List (Nat × String)) (dp : List (Nat × String))
    (x : Nat × String) (h : x ∈ dp) : x ∈ rows.foldl insertOrIgnore dp := by
  obtain ⟨t, ht⟩ := foldl_insertOrIgnore_append rows dp
  rw [ht]
  exact List.mem_append_left t h

theorem mem_foldl_insertOrIgnore_of_row (rows : List (Nat × String)) :
    ∀ dp r, r ∈ rows → r ∈ rows.foldl insertOrIgnore dp := by
  induction rows with
  | nil =>
    intro dp r hr
    simp at hr
  | cons s rest ih =>
    intro dp r hr
    rcases List.mem_cons.mp hr with h | h
    · subst h
      exact mem_foldl_insertOrIgnore_of_init rest _ r (mem_insertOrIgnore_self dp r)
    · exact ih _ r h

theorem mem_foldl_insertOrIgnore_cases (rows : List (Nat × String)) :
    ∀ dp x, x ∈ rows.foldl insertOrIgnore dp → x ∈ dp ∨ x ∈ rows := by
  induction rows with
  | nil =>
    intro dp x hx
    exact Or.inl hx
  | cons r rest ih =>
    intro dp x hx
    rw [List.foldl_cons] at hx
    rcases ih _ x hx with h | h
    · rw [insertOrIgnore] at h
      split at h
      · exact Or.inl h
      · rcases List.mem_append.mp h with h1 | h1
        · exact Or.inl h1
        · simp at h1
          exact Or.inr (by simp [h1])
    · exact Or.inr (List.mem_cons_of_mem r h)

theorem foldl_insertOrIgnore_of_all_mem (rows : List (Nat × String)) :
    ∀ dp, (∀ r ∈ rows, r ∈ dp) → rows.foldl insertOrIgnore dp = dp := by
  induction rows with
  | nil => intro dp _; rfl
  | cons r rest ih =>
    intro dp hall
    rw [List.foldl_cons, insertOrIgnore_eq_of_mem dp r (hall r (List.mem_cons_self r rest))]
    exact ih dp fun s hs => hall s (List.mem_cons_of_mem r hs)

theorem length_foldl_insertOrIgnore (rows : List (Nat × String)) :
    ∀ dp, rows.Nodup →
      (rows.foldl insertOrIgnore dp).length =
        dp.length + (rows.filter fun r => decide (r ∉ dp)).length := by
  induction rows with
  | nil => intro dp _; simp
  | cons r rest ih =>
    intro dp hnd
    have hndr : rest.Nodup := hnd.of_cons
    have hrnotin : r ∉ rest := by
      intro hmem
      exact (List.nodup_cons.mp hnd).1 hmem
    rw [List.foldl_cons, insertOrIgnore]
    by_cases hr : r ∈ dp
    · rw [if_pos hr, ih dp hndr]
      have hfalse : decide (r ∉ dp) = false := by simp [hr]
      simp [List.filter_cons, hfalse, hr]
    · rw [if_neg hr, ih (dp ++ [r]) hndr]
      have htrue : decide (r ∉ dp) = true := by simp [hr]
      have hfil : (rest.filter fun s => decide (s ∉ dp ++ [r])) =
          rest.filter fun s => decide (s ∉ dp) := by
        apply List.filter_congr
        intro x hx
        have hxr : x ≠ r := fun hxe => hrnotin (hxe ▸ hx)
        simp [List.mem_append, hxr]
      rw [hfil]
      simp [List.filter_cons, htrue, hr]
      omega

theorem selectMediumIds_length (db : DB) :
    (selectMediumIds db).length =
      min ((db.quotes.filter fun q => q.difficulty == "medium").length) NUM_DAYS := by
  rw [selectMediumIds, List.length_take, List.length_map, Nat.min_comm]

theorem selectMediumIds_mem (db : DB) (i : Nat) (h : i ∈ selectMediumIds db) :
    ∃ q ∈ db.quotes, q.difficulty = "medium" ∧ q.id = i := by
  have h1 : i ∈ (db.quotes.filter fun q => q.difficulty == "medium").map fun q => q.id :=
    List.take_subset NUM_DAYS _ h
  obtain ⟨q, hq, hqid⟩ := List.mem_map.mp h1
  have hq2 := List.mem_filter.mp hq
  exact ⟨q, hq2.1, eq_of_beq hq2.2, hqid⟩

/-- Number of rows one run adds to `daily_puzzles`. -/
def newRowCount (db : DB) : Nat :=
  (runSeeder db).1.daily_puzzles.length - db.daily_puzzles.length

/-- Modelled from the spec: the SQLite connection, whose transactional
behaviour is not code under `src/`. It carries the durable
`daily_puzzles` content and the pending (uncommitted) content the
cursor's writes build up. -/
structure Conn where
  persisted : List (Nat × String)
  pending : List (Nat × String)

/-- Modelled from the spec: `conn.commit()` is the single point where
pending writes become durable; no other operation touches the
persisted store. -/
def commitOp (c : Conn) : Conn :=
  ⟨c.pending, c.pending⟩

/-- The insert loop under a fault oracle: operation number `k` raises
exactly when `failAt = some k`, and an uncaught exception stops the loop
(the script has no try/except). Returns the connection and whether the
loop completed. -/
def insertsLoop : Conn → List (Nat × String) → Nat → Option Nat → Conn × Bool
  | c, [], _, _ => (c, true)
  | c, r :: rs, k, failAt =>
    if failAt = some k then (c, false)
    else insertsLoop ⟨c.persisted, insertOrIgnore c.pending r⟩ rs (k + 1) failAt

/-- The whole script under a fault oracle: operation 0 is the SELECT,
operations `1..rows.length` the inserts, operation `rows.length + 1` the
commit. Returns the printed line (`none` when an uncaught error killed
the process before the print) and the persisted `daily_puzzles` content
after the process ends. -/
def runScript (db : DB) (failAt : Option Nat) : Option String × List (Nat × String) :=
  if failAt = some 0 then
    (none, (Conn.mk db.daily_puzzles db.daily_puzzles).persisted)
  else if (insertsLoop (Conn.mk db.daily_puzzles db.daily_puzzles)
      (attemptedInserts (selectMediumIds db)) 1 failAt).2 = false then
    (none, (insertsLoop (Conn.mk db.daily_puzzles db.daily_puzzles)
      (attemptedInserts (selectMediumIds db)) 1 failAt).1.persisted)
  else if failAt = some ((attemptedInserts (selectMediumIds db)).length + 1) then
    (none, (insertsLoop (Conn.mk db.daily_puzzles db.daily_puzzles)
      (attemptedInserts (selectMediumIds db)) 1 failAt).1.persisted)
  else
    (some (summaryLine (selectMediumIds db).length),
      (commitOp (insertsLoop (Conn.mk db.daily_puzzles db.daily_puzzles)
        (attemptedInserts (selectMediumIds db)) 1 failAt).1).persisted)

theorem insertsLoop_persisted (rows : List (Nat × String)) :
    ∀ c k failAt, (insertsLoop c rows k failAt).1.persisted = c.persisted := by
  induction rows with
  | nil => intro c k failAt; rfl
  | cons r rs ih =>
    intro c k failAt
    rw [insertsLoop]
    split
    · rfl
    · exact ih _ (k + 1) failAt

theorem insertsLoop_ok_pending (rows : List (Nat × String)) :
    ∀ c k failAt, (insertsLoop c rows k failAt).2 = true →
      (insertsLoop c rows k failAt).1.pending = rows.foldl insertOrIgnore c.pending := by
  induction rows with
  | nil => intro c k failAt _; rfl
  | cons r rs ih =>
    intro c k failAt hok
    rw [insertsLoop] at hok ⊢
    split at hok
    · simp at hok
    · rw [List.foldl_cons]
      split
      · simp_all
      · exact ih _ (k + 1) failAt hok

theorem insertsLoop_fails_iff (rows : List (Nat × String)) :
    ∀ c k failAt, (insertsLoop c rows k failAt).2 = false ↔
      ∃ idx, failAt = some idx ∧ k ≤ idx ∧ idx < k + rows.length := by
  induction rows with
  | nil =>
    intro c k failAt
    constructor
    · intro h
      simp [insertsLoop] at h
    · intro ⟨idx, _, h2, h3⟩
      simp at h3
      omega
  | cons r rs ih =>
    intro c k failAt
    rw [insertsLoop]
    by_cases hk : failAt = some k
    · rw [if_pos hk]
      constructor
      · intro _
        exact ⟨k, hk, Nat.le_refl k, by simp only [List.length_cons]; omega⟩
      · intro _
        rfl
    · rw [if_neg hk, ih _ (k + 1) failAt]
      constructor
      · intro ⟨idx, h1, h2, h3⟩
        exact ⟨idx, h1, by omega, by simp only [List.length_cons]; omega⟩
      · intro ⟨idx, h1, h2, h3⟩
        refine ⟨idx, h1, ?_, ?_⟩
        · rcases Nat.eq_or_lt_of_le h2 with heq | hlt
          · exact absurd (heq ▸ h1) hk
          · omega
        · simp only [List.length_cons] at h3
          omega

theorem fmtDate_START : fmtDate START_DATE = "2025-04-23" := by decide

theorem natToStr_chars (n : Nat) : ∀ c ∈ (natToStr n).data, ∃ v, v < 10 ∧ c = digitChar v := by
  intro c hc
  obtain ⟨v, hv, rfl⟩ := List.mem_map.mp hc
  exact ⟨v, natDigitsGo_lt n n (Nat.le_refl n) v hv, rfl⟩

/-- C1: the id at zero-based position `i` of the fetched list is paired with
`START_DATE + i` days rendered as `YYYY-MM-DD`; with three fetched ids the
dates are exactly 2025-04-23, 2025-04-24, 2025-04-25 in fetch order. -/
theorem seeder_date_mapping :
    (∀ (ids : List Nat) (i : Nat) (h : i < ids.length)
        (h2 : i < (attemptedInserts ids).length),
      (attemptedInserts ids)[i] = (ids.get ⟨i, h⟩, puzzleDate i)) ∧
    ∀ q0 q1 q2 : Nat, attemptedInserts [q0, q1, q2] =
      [(q0, "2025-04-23"), (q1, "2025-04-24"), (q2, "2025-04-25")] := by
  constructor
  · intro ids i h h2
    exact attemptedInserts_getElem ids i h h2
  · intro q0 q1 q2
    have e0 : puzzleDate 0 = "2025-04-23" := by decide
    have e1 : puzzleDate 1 = "2025-04-24" := by decide
    have e2 : puzzleDate 2 = "2025-04-25" := by decide
    show attemptedFrom 0 [q0, q1, q2] = _
    rw [attemptedFrom, attemptedFrom, attemptedFrom, attemptedFrom, e0, e1, e2]

/-- Witness for C1 at a concrete input. -/
theorem seeder_date_mapping_witness :
    (attemptedInserts [7, 8, 9]).get ⟨1, by decide⟩ = (8, "2025-04-24") := by
  have h := seeder_date_mapping.1 [7, 8, 9] 1 (by decide) (by decide)
  exact h.trans (by decide)

/-- C2: a second run on the state the first run produced changes nothing:
every pair the second run attempts is already present, and the final
`daily_puzzles` content equals the first run's. -/
theorem seeder_idempotent (db : DB) :
    (runSeeder (runSeeder db).1).1.daily_puzzles = (runSeeder db).1.daily_puzzles ∧
    ∀ r ∈ attemptedInserts (selectMediumIds (runSeeder db).1),
      r ∈ (runSeeder db).1.daily_puzzles := by
  have hq : (runSeeder db).1.quotes = db.quotes := rfl
  have hsel : selectMediumIds (runSeeder db).1 = selectMediumIds db := by
    rw [selectMediumIds, selectMediumIds, hq]
  have hmem : ∀ r ∈ attemptedInserts (selectMediumIds (runSeeder db).1),
      r ∈ (runSeeder db).1.daily_puzzles := by
    intro r hr
    rw [hsel] at hr
    exact mem_foldl_insertOrIgnore_of_row _ db.daily_puzzles r hr
  refine ⟨?_, hmem⟩
  show (attemptedInserts (selectMediumIds (runSeeder db).1)).foldl insertOrIgnore
      (runSeeder db).1.daily_puzzles = (runSeeder db).1.daily_puzzles
  exact foldl_insertOrIgnore_of_all_mem _ _ hmem

/-- Witness for C2 at a concrete store state. -/
theorem seeder_idempotent_witness :
    (runSeeder (runSeeder (DB.mk [Quote.mk 1 "medium"] [])).1).1.daily_puzzles =
      (runSeeder (DB.mk [Quote.mk 1 "medium"] [])).1.daily_puzzles ∧
    (1, "2025-04-23") ∈ (runSeeder (DB.mk [Quote.mk 1 "medium"] [])).1.daily_puzzles := by
  have h := seeder_idempotent (DB.mk [Quote.mk 1 "medium"] [])
  exact ⟨h.1, h.2 (1, "2025-04-23") (by decide)⟩

/-- C3: the fetch is capped at `NUM_DAYS`: the number of fetched ids is
`min M NUM_DAYS` for `M` medium rows, the number of newly inserted rows is
exactly the number of attempted pairs not already present, and never
exceeds `min M NUM_DAYS`. -/
theorem seeder_cap (db : DB) :
    (selectMediumIds db).length =
      min ((db.quotes.filter fun q => q.difficulty == "medium").length) NUM_DAYS ∧
    newRowCount db =
      ((attemptedInserts (selectMediumIds db)).filter
        fun r => decide (r ∉ db.daily_puzzles)).length ∧
    newRowCount db ≤
      min ((db.quotes.filter fun q => q.difficulty == "medium").length) NUM_DAYS := by
  have hcount : newRowCount db =
      ((attemptedInserts (selectMediumIds db)).filter
        fun r => decide (r ∉ db.daily_puzzles)).length := by
    rw [newRowCount]
    show ((attemptedInserts (selectMediumIds db)).foldl insertOrIgnore
        db.daily_puzzles).length - db.daily_puzzles.length = _
    rw [length_foldl_insertOrIgnore _ db.daily_puzzles (attemptedInserts_nodup _)]
    omega
  refine ⟨selectMediumIds_length db, hcount, ?_⟩
  rw [hcount, ← selectMediumIds_length db]
  calc ((attemptedInserts (selectMediumIds db)).filter
          fun r => decide (r ∉ db.daily_puzzles)).length
      ≤ (attemptedInserts (selectMediumIds db)).length := List.length_filter_le _ _
    _ = (selectMediumIds db).length := attemptedInserts_length _

/-- C4: every row present after the run was either already there or
references a quote of difficulty `"medium"` from the `quotes` table. -/
theorem seeder_medium_only (db : DB) (r : Nat × String)
    (h : r ∈ (runSeeder db).1.daily_puzzles) :
    r ∈ db.daily_puzzles ∨ ∃ q ∈ db.quotes, q.difficulty = "medium" ∧ q.id = r.1 := by
  have h' : r ∈ (attemptedInserts (selectMediumIds db)).foldl insertOrIgnore
      db.daily_puzzles := h
  rcases mem_foldl_insertOrIgnore_cases _ db.daily_puzzles r h' with hc | hc
  · exact Or.inl hc
  · obtain ⟨i, _, _, hfst, _⟩ := attemptedFrom_mem _ 0 r hc
    exact Or.inr (selectMediumIds_mem db r.1 hfst)

/-- Witness for C4 at a concrete store state and row. -/
theorem seeder_medium_only_witness :
    (1, "2025-04-23") ∈ (DB.mk [Quote.mk 1 "medium"] []).daily_puzzles ∨
      ∃ q ∈ (DB.mk [Quote.mk 1 "medium"] []).quotes,
        q.difficulty = "medium" ∧ q.id = (1, "2025-04-23").1 :=
  seeder_medium_only (DB.mk [Quote.mk 1 "medium"] []) (1, "2025-04-23") (by decide)

/-- C5: the printed count is the number of fetched ids, even when fewer
rows are actually inserted because some pairs already existed. -/
theorem seeder_printed_count :
    (∀ db : DB, (runSeeder db).2 =
      "Populated " ++ natToStr (selectMediumIds db).length ++
        " daily puzzles starting from " ++ "2025-04-23") ∧
    ∃ db : DB, newRowCount db < (selectMediumIds db).length := by
  constructor
  · intro db
    show summaryLine (selectMediumIds db).length = _
    rw [summaryLine, fmtDate_START]
  · refine ⟨DB.mk [Quote.mk 1 "medium"] [(1, "2025-04-23")], ?_⟩
    decide

/-- C6: on success the output is the single summary line (it contains no
newline), and with an empty `quotes` table nothing is fetched, nothing is
inserted, and the line is exactly
`Populated 0 daily puzzles starting from 2025-04-23`. -/
theorem seeder_output_line (db : DB) :
    (runSeeder db).2 =
      "Populated " ++ natToStr (selectMediumIds db).length ++
        " daily puzzles starting from " ++ "2025-04-23" ∧
    (∀ c ∈ (runSeeder db).2.data, c ≠ '\n') ∧
    (db.quotes = [] →
      selectMediumIds db = [] ∧ (runSeeder db).1.daily_puzzles = db.daily_puzzles ∧
        (runSeeder db).2 = "Populated 0 daily puzzles starting from 2025-04-23") := by
  have hmsg : (runSeeder db).2 =
      "Populated " ++ natToStr (selectMediumIds db).length ++
        " daily puzzles starting from " ++ "2025-04-23" := by
    show summaryLine (selectMediumIds db).length = _
    rw [summaryLine, fmtDate_START]
  refine ⟨hmsg, ?_, ?_⟩
  · intro c hc
    rw [hmsg] at hc
    simp only [String.data_append] at hc
    rcases List.mem_append.mp hc with hc1 | hc2
    · rcases List.mem_append.mp hc1 with hc3 | hc4
      · rcases List.mem_append.mp hc3 with hc5 | hc6
        · exact (by decide : ∀ x ∈ "Populated ".data, x ≠ ('\n' : Char)) c hc5
        · obtain ⟨v, hv, rfl⟩ := natToStr_chars _ c hc6
          interval_cases v <;> decide
      · exact (by decide : ∀ x ∈ " daily puzzles starting from ".data, x ≠ ('\n' : Char)) c hc4
    · exact (by decide : ∀ x ∈ "2025-04-23".data, x ≠ ('\n' : Char)) c hc2
  · intro h
    have hsel : selectMediumIds db = [] := by
      rw [selectMediumIds, h]
      rfl
    refine ⟨hsel, ?_, ?_⟩
    · show (attemptedInserts (selectMediumIds db)).foldl insertOrIgnore
          db.daily_puzzles = db.daily_puzzles
      rw [hsel]
      rfl
    · show summaryLine (selectMediumIds db).length = _
      rw [hsel]
      decide

/-- Witness for C6 at a concrete store state with an empty quotes table. -/
theorem seeder_output_line_witness :
    (runSeeder (DB.mk [] [(5, "x")])).2 =
      "Populated 0 daily puzzles starting from 2025-04-23" ∧
    ('P' : Char) ≠ '\n' := by
  have h := seeder_output_line (DB.mk [] [(5, "x")])
  exact ⟨(h.2.2 rfl).2.2, h.2.1 'P' (by decide)⟩

/-- C7: no error is caught: a fault at any operation up to and including
the commit yields no output, and the persisted `daily_puzzles` content is
exactly the pre-run content since the single commit is the only operation
that makes writes durable; a fault-free run persists the normal result
and prints the summary line. -/
theorem seeder_error_semantics (db : DB) (failAt : Option Nat) :
    ((runScript db failAt).1 = none ↔
      ∃ k, failAt = some k ∧ k ≤ (attemptedInserts (selectMediumIds db)).length + 1) ∧
    ((runScript db failAt).1 = none → (runScript db failAt).2 = db.daily_puzzles) ∧
    (runScript db none).1 = some (runSeeder db).2 ∧
    (runScript db none).2 = (runSeeder db).1.daily_puzzles := by
  have hpers : ∀ f : Option Nat,
      (insertsLoop (Conn.mk db.daily_puzzles db.daily_puzzles)
        (attemptedInserts (selectMediumIds db)) 1 f).1.persisted = db.daily_puzzles :=
    fun f => insertsLoop_persisted _ _ 1 f
  have hnone : runScript db none = (some (runSeeder db).2, (runSeeder db).1.daily_puzzles) := by
    unfold runScript
    rw [if_neg (by simp : ¬ (none : Option Nat) = some 0)]
    have hfail : ¬ (insertsLoop (Conn.mk db.daily_puzzles db.daily_puzzles)
        (attemptedInserts (selectMediumIds db)) 1 none).2 = false := by
      intro hf
      obtain ⟨idx, hidx, _, _⟩ := (insertsLoop_fails_iff _ _ 1 none).mp hf
      exact Option.noConfusion hidx
    rw [if_neg hfail,
      if_neg (by simp : ¬ (none : Option Nat) =
        some ((attemptedInserts (selectMediumIds db)).length + 1))]
    have hok : (insertsLoop (Conn.mk db.daily_puzzles db.daily_puzzles)
        (attemptedInserts (selectMediumIds db)) 1 none).2 = true := by
      rcases Bool.eq_false_or_eq_true ((insertsLoop (Conn.mk db.daily_puzzles db.daily_puzzles)
        (attemptedInserts (selectMediumIds db)) 1 none).2) with hb | hb
      · exact hb
      · exact absurd hb hfail
    have hcp : (commitOp (insertsLoop (Conn.mk db.daily_puzzles db.daily_puzzles)
        (attemptedInserts (selectMediumIds db)) 1 none).1).persisted =
        (insertsLoop (Conn.mk db.daily_puzzles db.daily_puzzles)
          (attemptedInserts (selectMediumIds db)) 1 none).1.pending := rfl
    rw [hcp, insertsLoop_ok_pending _ _ 1 none hok]
    rfl
  refine ⟨?_, ?_, by rw [hnone], by rw [hnone]⟩
  · unfold runScript
    by_cases h0 : failAt = some 0
    · rw [if_pos h0]
      exact Iff.intro (fun _ => ⟨0, h0, Nat.zero_le _⟩) (fun _ => rfl)
    · rw [if_neg h0]
      by_cases hl : (insertsLoop (Conn.mk db.daily_puzzles db.daily_puzzles)
          (attemptedInserts (selectMediumIds db)) 1 failAt).2 = false
      · rw [if_pos hl]
        refine Iff.intro (fun _ => ?_) (fun _ => rfl)
        obtain ⟨idx, h1, h2, h3⟩ := (insertsLoop_fails_iff _ _ 1 failAt).mp hl
        exact ⟨idx, h1, by omega⟩
      · rw [if_neg hl]
        by_cases hc : failAt = some ((attemptedInserts (selectMediumIds db)).length + 1)
        · rw [if_pos hc]
          exact Iff.intro (fun _ => ⟨_, hc, Nat.le_refl _⟩) (fun _ => rfl)
        · rw [if_neg hc]
          constructor
          · intro hfalse
            exact absurd hfalse (by simp)
          · intro hex
            obtain ⟨k, hk, hle⟩ := hex
            exfalso
            have hk0 : k ≠ 0 := fun h => h0 (h ▸ hk)
            have hkl : k ≠ (attemptedInserts (selectMediumIds db)).length + 1 :=
              fun h => hc (h ▸ hk)
            exact hl ((insertsLoop_fails_iff _ _ 1 failAt).mpr
              ⟨k, hk, by omega, by omega⟩)
  · intro hn
    unfold runScript at hn ⊢
    by_cases h0 : failAt = some 0
    · rw [if_pos h0]
    · rw [if_neg h0] at hn ⊢
      by_cases hl : (insertsLoop (Conn.mk db.daily_puzzles db.daily_puzzles)
          (attemptedInserts (selectMediumIds db)) 1 failAt).2 = false
      · rw [if_pos hl]
        exact hpers failAt
      · rw [if_neg hl] at hn ⊢
        by_cases hc : failAt = some ((attemptedInserts (selectMediumIds db)).length + 1)
        · rw [if_pos hc]
          exact hpers failAt
        · rw [if_neg hc] at hn
          exact absurd hn (by simp)

/-- Witness for C7 at a concrete store state with a fault at the first insert. -/
theorem seeder_error_semantics_witness :
    (runScript (DB.mk [Quote.mk 1 "medium"] []) (some 1)).1 = none ∧
    (runScript (DB.mk [Quote.mk 1 "medium"] []) (some 1)).2 =
      (DB.mk [Quote.mk 1 "medium"] []).daily_puzzles := by
  have h := seeder_error_semantics (DB.mk [Quote.mk 1 "medium"] []) (some 1)
  have hn : (runScript (DB.mk [Quote.mk 1 "medium"] []) (some 1)).1 = none :=
    h.1.mpr ⟨1, rfl, by decide⟩
  exact ⟨hn, h.2.1 hn⟩

/-- C8: the run never touches the `quotes` table and only ever appends to
`daily_puzzles`: the pre-run rows survive in place, in order. -/
theorem seeder_frame (db : DB) :
    (runSeeder db).1.quotes = db.quotes ∧
    ∃ t, (runSeeder db).1.daily_puzzles = db.daily_puzzles ++ t := by
  refine ⟨rfl, ?_⟩
  show ∃ t, (attemptedInserts (selectMediumIds db)).foldl insertOrIgnore
      db.daily_puzzles = db.daily_puzzles ++ t
  exact foldl_insertOrIgnore_append _ db.daily_puzzles

/-- C9: distinct loop positions always produce distinct date strings, and
when the fetched ids are pairwise distinct the attempted pairs differ in
both coordinates. -/
theorem seeder_distinct_dates :
    (∀ i j : Nat, i ≠ j → puzzleDate i ≠ puzzleDate j) ∧
    ∀ ids : List Nat, ids.Nodup →
      ∀ i j (hi : i < (attemptedInserts ids).length) (hj : j < (attemptedInserts ids).length),
        i ≠ j →
          (attemptedInserts ids)[i].1 ≠ (attemptedInserts ids)[j].1 ∧
          (attemptedInserts ids)[i].2 ≠ (attemptedInserts ids)[j].2 := by
  refine ⟨fun i j hij => puzzleDate_inj hij, ?_⟩
  intro ids hnd i j hi hj hij
  have hi' : i < ids.length := by rwa [attemptedInserts_length] at hi
  have hj' : j < ids.length := by rwa [attemptedInserts_length] at hj
  rw [attemptedInserts_getElem ids i hi' hi, attemptedInserts_getElem ids j hj' hj]
  constructor
  · intro heq
    exact hij (hnd.getElem_inj_iff.mp heq)
  · intro heq
    exact puzzleDate_inj hij heq

/-- Witness for C9 at a concrete id list and positions. -/
theorem seeder_distinct_dates_witness :
    (attemptedInserts [4, 7]).get ⟨0, by decide⟩ ≠ (attemptedInserts [4, 7]).get ⟨1, by decide⟩ := by
  have h := seeder_distinct_dates.2 [4, 7] (by decide) 0 1 (by decide) (by decide) (by decide)
  intro heq
  exact h.1 (congrArg Prod.fst heq)

/-- C10: the run is a deterministic function of the fetched ids and the
initial `daily_puzzles` content: agreeing inputs give the same attempted
inserts, the same final table, and the same printed line. -/
theorem seeder_deterministic (db1 db2 : DB)
    (hids : selectMediumIds db1 = selectMediumIds db2)
    (hdp : db1.daily_puzzles = db2.daily_puzzles) :
    attemptedInserts (selectMediumIds db1) = attemptedInserts (selectMediumIds db2) ∧
    (runSeeder db1).1.daily_puzzles = (runSeeder db2).1.daily_puzzles ∧
    (runSeeder db1).2 = (runSeeder db2).2 := by
  refine ⟨by rw [hids], ?_, ?_⟩
  · show (attemptedInserts (selectMediumIds db1)).foldl insertOrIgnore db1.daily_puzzles =
      (attemptedInserts (selectMediumIds db2)).foldl insertOrIgnore db2.daily_puzzles
    rw [hids, hdp]
  · show summaryLine (selectMediumIds db1).length = summaryLine (selectMediumIds db2).length
    rw [hids]

/-- Witness for C10 at two concrete store states agreeing on the inputs. -/
theorem seeder_deterministic_witness :
    (runSeeder (DB.mk [Quote.mk 1 "medium", Quote.mk 2 "hard"] [])).2 =
      (runSeeder (DB.mk [Quote.mk 1 "medium", Quote.mk 3 "easy"] [])).2 := by
  have h := seeder_deterministic (DB.mk [Quote.mk 1 "medium", Quote.mk 2 "hard"] [])
    (DB.mk [Quote.mk 1 "medium", Quote.mk 3 "easy"] []) (by decide) rfl
  exact h.2.2

end DailySeeder
